import Mathlib

/-!
Verification development for the Linguist Pro vocabulary-lookup front-end.

The definitions below are a shallow embedding of the repository's
non-presentational logic:

* `services/geminiService.ts` — `lookupWord`'s response-parsing step
  (markdown fence handling plus strict JSON parsing) and `generateAudio`;
* `App.tsx` — `addToHistory`, `performSearch`, `startVoiceSearch`;
* `components/WordDisplay.tsx` — `decodeBase64`, `decodeAudioData`,
  `handleReadAloud`.

JavaScript strings are modelled as Lean `String`/`List Char`, JavaScript
numbers appearing as audio samples are modelled exactly as rationals
(every value `int16 / 32768` is exactly representable in an IEEE float32,
so the rational model is exact), and JSON documents are modelled by the
inductive type `Json` below.  Fallible operations return `Option` or
`Except`.
-/

namespace LinguistPro

/-! ## Whitespace, trimming and fence stripping -/

/-- JSON insignificant whitespace characters (also the ASCII core of the
whitespace class stripped by JavaScript's `String.prototype.trim`). -/
def isJsonWs (c : Char) : Bool :=
  c = ' ' || c = '\t' || c = '\n' || c = '\r'

/-- Drop leading whitespace. -/
def skipWs (l : List Char) : List Char := l.dropWhile isJsonWs

/-- Strip leading and trailing whitespace; models `text.trim()` on the
response payload (restricted to the ASCII whitespace actually exercised by
the contract). -/
def trimWs (l : List Char) : List Char :=
  ((l.dropWhile isJsonWs).reverse.dropWhile isJsonWs).reverse

/-- Boolean test that `l` starts with the pattern `p`. -/
def listStartsWith (p l : List Char) : Bool := l.take p.length == p

/-- The characters of the opening fence marker with language tag. -/
def fenceJson : List Char := "```json".toList

/-- The characters of a bare fence marker. -/
def fence3 : List Char := "```".toList

/-- True when some position of `l` starts a fence marker. -/
def containsFence : List Char → Bool
  | [] => false
  | c :: cs => listStartsWith fence3 (c :: cs) || containsFence cs

/-- One left-to-right pass of the global regex replacement
`text.replace(/```json|```/g, '')` from `lookupWord`: at each position the
alternative ```` ```json ```` is preferred, a match is removed and scanning
resumes after it.  `fuel` bounds the recursion; `replaceFences` supplies
the list length, which always suffices because every step consumes at
least one character. -/
def replaceFencesAux : Nat → List Char → List Char
  | 0, l => l
  | _ + 1, [] => []
  | fuel + 1, c :: cs =>
    if listStartsWith fenceJson (c :: cs) then replaceFencesAux fuel (cs.drop 6)
    else if listStartsWith fence3 (c :: cs) then replaceFencesAux fuel (cs.drop 2)
    else c :: replaceFencesAux fuel cs

/-- Global removal of all fence-marker occurrences, as performed by
`text.replace(/```json|```/g, '')` in `lookupWord`. -/
def replaceFences (l : List Char) : List Char := replaceFencesAux l.length l

/-! ## JSON values and strict JSON parsing

`Json` models the value produced by `JSON.parse`.  Numbers are kept as
their lexemes: no claim compares JSON numbers numerically, and this avoids
modelling IEEE doubles. -/

inductive Json where
  | null : Json
  | bool : Bool → Json
  | num : String → Json
  | str : String → Json
  | arr : List Json → Json
  | obj : List (String × Json) → Json

/-- Value of one hexadecimal digit. -/
def hexVal (c : Char) : Option Nat :=
  if '0' ≤ c ∧ c ≤ '9' then some (c.toNat - 48)
  else if 'a' ≤ c ∧ c ≤ 'f' then some (c.toNat - 97 + 10)
  else if 'A' ≤ c ∧ c ≤ 'F' then some (c.toNat - 65 + 10)
  else none

/-- Parse the body of a JSON string literal (after the opening quote),
returning the decoded characters and the remaining input. -/
def parseStrChars : List Char → Option (List Char × List Char)
  | [] => none
  | '"' :: r => some ([], r)
  | '\\' :: r =>
    match r with
    | '"' :: r2 => (parseStrChars r2).map fun p => ('"' :: p.1, p.2)
    | '\\' :: r2 => (parseStrChars r2).map fun p => ('\\' :: p.1, p.2)
    | '/' :: r2 => (parseStrChars r2).map fun p => ('/' :: p.1, p.2)
    | 'b' :: r2 => (parseStrChars r2).map fun p => ('\x08' :: p.1, p.2)
    | 'f' :: r2 => (parseStrChars r2).map fun p => ('\x0c' :: p.1, p.2)
    | 'n' :: r2 => (parseStrChars r2).map fun p => ('\n' :: p.1, p.2)
    | 'r' :: r2 => (parseStrChars r2).map fun p => ('\r' :: p.1, p.2)
    | 't' :: r2 => (parseStrChars r2).map fun p => ('\t' :: p.1, p.2)
    | 'u' :: h1 :: h2 :: h3 :: h4 :: r2 =>
      match hexVal h1, hexVal h2, hexVal h3, hexVal h4 with
      | some a, some b, some c, some d =>
        (parseStrChars r2).map fun p =>
          (Char.ofNat (a * 4096 + b * 256 + c * 16 + d) :: p.1, p.2)
      | _, _, _, _ => none
    | _ => none
  | c :: r =>
    if c.toNat < 32 then none
    else (parseStrChars r).map fun p => (c :: p.1, p.2)

/-- Parse the optional fraction part of a JSON number. -/
def parseFracPart : List Char → Option (List Char × List Char)
  | '.' :: r =>
    let ds := r.takeWhile Char.isDigit
    if ds.isEmpty then none else some ('.' :: ds, r.dropWhile Char.isDigit)
  | l => some ([], l)

/-- Parse the optional exponent part of a JSON number. -/
def parseExpPart : List Char → Option (List Char × List Char)
  | c :: r =>
    if c = 'e' ∨ c = 'E' then
      let sr : List Char × List Char :=
        match r with
        | '+' :: r3 => (['+'], r3)
        | '-' :: r3 => (['-'], r3)
        | _ => ([], r)
      let ds := sr.2.takeWhile Char.isDigit
      if ds.isEmpty then none
      else some (c :: sr.1 ++ ds, sr.2.dropWhile Char.isDigit)
    else some ([], c :: r)
  | [] => some ([], [])

/-- Parse a JSON number lexeme per the strict JSON grammar ("-"? int frac?
exp?); returns the lexeme and the remaining input. -/
def parseNumber (l : List Char) : Option (String × List Char) :=
  let sr : List Char × List Char :=
    match l with
    | '-' :: r => (['-'], r)
    | _ => ([], l)
  match sr.2 with
  | [] => none
  | c :: r =>
    let ir : Option (List Char × List Char) :=
      if c = '0' then some (['0'], r)
      else if c.isDigit then some (c :: r.takeWhile Char.isDigit, r.dropWhile Char.isDigit)
      else none
    match ir with
    | none => none
    | some (ip, rest1) =>
      match parseFracPart rest1 with
      | none => none
      | some (fp, rest2) =>
        match parseExpPart rest2 with
        | none => none
        | some (ep, rest3) => some (String.mk (sr.1 ++ ip ++ fp ++ ep), rest3)

mutual

/-- Parse one JSON value (after skipping leading whitespace); models the
grammar accepted by strict `JSON.parse`.  The fuel argument bounds the
nesting recursion and is chosen large enough by `jsonParse`. -/
def parseValue : Nat → List Char → Option (Json × List Char)
  | 0, _ => none
  | fuel + 1, l =>
    match skipWs l with
    | 'n' :: 'u' :: 'l' :: 'l' :: r => some (.null, r)
    | 't' :: 'r' :: 'u' :: 'e' :: r => some (.bool true, r)
    | 'f' :: 'a' :: 'l' :: 's' :: 'e' :: r => some (.bool false, r)
    | '"' :: r => (parseStrChars r).map fun p => (.str (String.mk p.1), p.2)
    | '[' :: r =>
      (match skipWs r with
       | ']' :: r2 => some (.arr [], r2)
       | r1 => (parseElems fuel r1).map fun p => (.arr p.1, p.2))
    | '\x7b' :: r =>
      (match skipWs r with
       | '\x7d' :: r2 => some (.obj [], r2)
       | r1 => (parseMembers fuel r1).map fun p => (.obj p.1, p.2))
    | c :: r =>
      if c = '-' ∨ c.isDigit then
        (parseNumber (c :: r)).map fun p => (.num p.1, p.2)
      else none
    | [] => none

/-- Parse the comma-separated elements of a nonempty JSON array up to the
closing bracket. -/
def parseElems : Nat → List Char → Option (List Json × List Char)
  | 0, _ => none
  | fuel + 1, l =>
    match parseValue fuel l with
    | some (v, r) =>
      (match skipWs r with
       | ',' :: r2 => (parseElems fuel r2).map fun p => (v :: p.1, p.2)
       | ']' :: r2 => some ([v], r2)
       | _ => none)
    | none => none

/-- Parse the comma-separated members of a nonempty JSON object up to the
closing brace. -/
def parseMembers : Nat → List Char → Option (List (String × Json) × List Char)
  | 0, _ => none
  | fuel + 1, l =>
    match skipWs l with
    | '"' :: r =>
      (match parseStrChars r with
       | some (k, r2) =>
         (match skipWs r2 with
          | ':' :: r3 =>
            (match parseValue fuel r3 with
             | some (v, r4) =>
               (match skipWs r4 with
                | ',' :: r5 => (parseMembers fuel r5).map fun p => ((String.mk k, v) :: p.1, p.2)
                | '\x7d' :: r5 => some ([(String.mk k, v)], r5)
                | _ => none)
             | none => none)
          | _ => none)
       | none => none)
    | _ => none

end

/-- Strict JSON parsing of a whole text; models `JSON.parse`: surrounding
whitespace is tolerated, anything after the single top-level value is a
syntax error, in which case the result is `none`. -/
def jsonParse (l : List Char) : Option Json :=
  let t := trimWs l
  match parseValue (2 * t.length + 2) t with
  | some (v, r) => if (skipWs r).isEmpty then some v else none
  | none => none

/-! ## The response-parsing step of `lookupWord` -/

/-- The error raised by `lookupWord` when the model's output cannot be
parsed (`InvalidResponse` in the specification's taxonomy; the
network-level `RequestFailed` is modelled by `LookupOutcome.networkFailure`
below, since it arises before any payload exists). -/
inductive LookupError where
  | invalidResponse : LookupError

/-- The parsing step of `lookupWord` (geminiService.ts, lines 52-60):
trim the response text, strip fence markers globally when the text starts
with ```` ```json ````, then `JSON.parse`; a parse exception is remapped to
`InvalidResponse`.  A successfully parsed value is returned as-is — the
source performs no schema validation of the parsed object. -/
def parseLookupResponse (raw : String) : Except LookupError Json :=
  let text := trimWs raw.toList
  let jsonStr := if listStartsWith fenceJson text then replaceFences text else text
  match jsonParse jsonStr with
  | some v => Except.ok v
  | none => Except.error LookupError.invalidResponse

/-- Wrap a payload in a markdown code fence with the `json` language tag. -/
def fenceWrap (t : String) : String := "```json\n" ++ t ++ "\n```"

/-- Member access `j.k` on a parsed JSON value, as JavaScript evaluates it
on every non-null value: the named field of an object (`JSON.parse` keeps
the last occurrence of a duplicated key, hence the reversed search), and
`undefined` (here `none`) on any other non-null value.  Access on `null`
throws instead and is handled separately at each use site. -/
def jsonGet (j : Json) (k : String) : Option Json :=
  match j with
  | .obj fields => (fields.reverse.find? fun p => p.1 == k).map fun p => p.2
  | _ => none

/-- Observational projection on lookup parse results: the string content
of the `word` field of a successfully parsed payload. -/
def wordFieldStr (r : Except LookupError Json) : Option String :=
  match r with
  | Except.ok j =>
    (match jsonGet j "word" with
     | some (Json.str s) => some s
     | _ => none)
  | Except.error _ => none

/-! ## Session history (`App.tsx`) -/

/-- One history entry.  `word` holds the JavaScript value
`data.word`, which is `undefined` (`none`) when the parsed payload has no
`word` field; a well-formed lookup stores `some (Json.str w)`. -/
structure HistoryItem where
  word : Option Json
  timestamp : Nat

/-- JavaScript strict equality `===` on the values compared by the history
filter.  Primitive JSON values compare by value; arrays and objects
compare by reference, and the two operands of the filter always originate
from distinct `JSON.parse` results, so distinct references — hence `false`
for the composite cases. -/
def jsStrictEq : Option Json → Option Json → Bool
  | none, none => true
  | some .null, some .null => true
  | some (.bool a), some (.bool b) => a == b
  | some (.num a), some (.num b) => a == b
  | some (.str a), some (.str b) => a == b
  | _, _ => false

/-- `addToHistory` from `App.tsx` (lines 33-38): remove entries whose word
is strictly equal to the new word, prepend the new entry with the current
timestamp, keep the first 50. -/
def addToHistory (history : List HistoryItem) (word : Option Json) (now : Nat) :
    List HistoryItem :=
  ({ word := word, timestamp := now } :: history.filter fun h => !jsStrictEq h.word word).take 50

/-- A history entry as described by the specification's data model, where
`word` is a string. -/
structure HistoryItemS where
  word : String
  timestamp : Nat

/-- Modelled from the spec: `record` of SessionHistoryStore — "removes any
existing entry with the same `word` (case-sensitive exact match), prepends
a new entry with current timestamp, then truncates to the first 50
entries." -/
def recordSpec (history : List HistoryItemS) (word : String) (now : Nat) :
    List HistoryItemS :=
  ({ word := word, timestamp := now } :: history.filter fun h => decide (h.word ≠ word)).take 50

/-- Embedding of a spec-level history entry into the JavaScript-level one. -/
def itemOfS (h : HistoryItemS) : HistoryItem :=
  { word := some (Json.str h.word), timestamp := h.timestamp }

/-- Fold a sequence of (word, timestamp) recordings through `addToHistory`
starting from the empty history. -/
def processOps (ops : List (String × Nat)) : List HistoryItem :=
  ops.foldl (fun h p => addToHistory h (some (Json.str p.1)) p.2) []

/-! ## Application search flow (`App.tsx`) -/

/-- The two lookup modes ("EN" analyzes English input, "CN" translates
Chinese input first); the mode selects the instruction prompt sent with
the request and does not otherwise affect the client-side flow. -/
inductive SearchMode where
  | EN : SearchMode
  | CN : SearchMode

/-- Outcome of the awaited `lookupWord` network call: either the
transport/service call itself rejects (`RequestFailed` territory), or it
resolves with a response payload text. -/
inductive LookupOutcome where
  | networkFailure : LookupOutcome
  | payload : String → LookupOutcome

/-- The pieces of `App` component state touched or framed by
`performSearch`.  `result` is the React `result` state where `Json.null`
renders nothing; `query` holds the JavaScript value passed to `setQuery`
(`none` models `undefined`); `storage` is the content of the
`linguist_history` key of local storage, in parsed form (`none` when the
key is absent). -/
structure AppState where
  query : Option Json
  loading : Bool
  result : Json
  history : List HistoryItem
  transcriptFeedback : String
  storage : Option (List HistoryItem)
  searchMode : SearchMode
  isListening : Bool

/-- `performSearch` from `App.tsx` (lines 40-57) as a state transition.
The returned boolean records whether `lookupWord` was invoked.  A blank
trimmed query returns before any state update; otherwise the loading flag
is raised, the transcript feedback cleared, and the awaited outcome
handled: a rejection or parse failure lands in the catch (alert) with the
finally clause clearing the loading flag; a parsed value is stored via
`setResult`, then `data.word` is read — which throws on a `null` payload,
caught by the same catch — and on success the history is updated and
persisted and the query replaced by the canonical word. -/
def performSearch (st : AppState) (searchQuery : String) (_mode : SearchMode)
    (outcome : LookupOutcome) (now : Nat) : AppState × Bool :=
  if (trimWs searchQuery.toList).isEmpty then (st, false)
  else
    let st1 := { st with loading := true, transcriptFeedback := "" }
    match outcome with
    | .networkFailure => ({ st1 with loading := false }, true)
    | .payload text =>
      match parseLookupResponse text with
      | .error _ => ({ st1 with loading := false }, true)
      | .ok data =>
        let st2 := { st1 with result := data }
        match data with
        | .null => ({ st2 with loading := false }, true)
        | _ =>
          let w := jsonGet data "word"
          let newHist := addToHistory st2.history w now
          ({ st2 with history := newHist, storage := some newHist,
                      query := w, loading := false }, true)

/-! ## Audio decode path (`components/WordDisplay.tsx`) -/

/-- The base64 character of a sextet value below 64. -/
def b64CharOfNat (n : Nat) : Char :=
  if n < 26 then Char.ofNat (65 + n)
  else if n < 52 then Char.ofNat (97 + (n - 26))
  else if n < 62 then Char.ofNat (48 + (n - 52))
  else if n = 62 then '+'
  else '/'

/-- Sextet value of one base64 alphabet character. -/
def b64CharVal (c : Char) : Option Nat :=
  if 'A' ≤ c ∧ c ≤ 'Z' then some (c.toNat - 65)
  else if 'a' ≤ c ∧ c ≤ 'z' then some (c.toNat - 97 + 26)
  else if '0' ≤ c ∧ c ≤ '9' then some (c.toNat - 48 + 52)
  else if c = '+' then some 62
  else if c = '/' then some 63
  else none

/-- Modelled from the spec: standard base64 encoding of a byte sequence
(the test-harness side of P6's round trip; the repository itself only
decodes). -/
def b64Encode : List Nat → List Char
  | [] => []
  | [b0] => [b64CharOfNat (b0 / 4), b64CharOfNat (b0 % 4 * 16), '=', '=']
  | [b0, b1] =>
    [b64CharOfNat (b0 / 4), b64CharOfNat (b0 % 4 * 16 + b1 / 16),
     b64CharOfNat (b1 % 16 * 4), '=']
  | b0 :: b1 :: b2 :: rest =>
    b64CharOfNat (b0 / 4) :: b64CharOfNat (b0 % 4 * 16 + b1 / 16) ::
    b64CharOfNat (b1 % 16 * 4 + b2 / 64) :: b64CharOfNat (b2 % 64) ::
    b64Encode rest

/-- The chunk-decoding step of forgiving base64, applied after all ASCII
whitespace has been removed: a final chunk of two or three characters,
with or without `=` padding, yields one or two bytes and leftover bits
are discarded; `none` models the `InvalidCharacterError` exception. -/
def b64DecodeChars : List Char → Option (List Nat)
  | [] => some []
  | [_] => none
  | [c0, c1] =>
    (match b64CharVal c0, b64CharVal c1 with
     | some v0, some v1 => some [v0 * 4 + v1 / 16]
     | _, _ => none)
  | [c0, c1, c2] =>
    (match b64CharVal c0, b64CharVal c1, b64CharVal c2 with
     | some v0, some v1, some v2 => some [v0 * 4 + v1 / 16, v1 % 16 * 16 + v2 / 4]
     | _, _, _ => none)
  | c0 :: c1 :: c2 :: c3 :: rest =>
    (match b64CharVal c0, b64CharVal c1 with
     | some v0, some v1 =>
       if c2 = '=' then
         if c3 = '=' ∧ rest = [] then some [v0 * 4 + v1 / 16] else none
       else
         (match b64CharVal c2 with
          | some v2 =>
            if c3 = '=' then
              if rest = [] then some [v0 * 4 + v1 / 16, v1 % 16 * 16 + v2 / 4]
              else none
            else
              (match b64CharVal c3, b64DecodeChars rest with
               | some v3, some bs =>
                 some ((v0 * 4 + v1 / 16) :: (v1 % 16 * 16 + v2 / 4) ::
                       (v2 % 4 * 64 + v3) :: bs)
               | _, _ => none)
          | none => none)
     | _, _ => none)

/-- ASCII whitespace, the character class removed by forgiving base64
before decoding (TAB, LF, FF, CR, SPACE). -/
def isAsciiWs (c : Char) : Bool :=
  c = '\t' || c = '\n' || c = '\x0c' || c = '\r' || c = ' '

/-- `decodeBase64` from `WordDisplay.tsx` (lines 23-31): `atob` to a
binary string, then one byte per character.  `atob` implements forgiving
base64: all ASCII whitespace is first removed from the input, then the
chunks are decoded strictly; `none` models the exception `atob` throws on
invalid input. -/
def decodeBase64 (base64 : String) : Option (List Nat) :=
  b64DecodeChars (base64.toList.filter fun c => !isAsciiWs c)

/-- Reinterpret a little-endian byte sequence as 16-bit signed samples, as
`new Int16Array(data.buffer)` does; an odd byte count makes the
constructor throw (`none`). -/
def bytesToInt16 : List Nat → Option (List Int)
  | [] => some []
  | [_] => none
  | b0 :: b1 :: rest =>
    (bytesToInt16 rest).map fun vs =>
      (let u := b0 + 256 * b1
       if u < 32768 then (u : Int) else (u : Int) - 65536) :: vs

/-- The audio buffer produced by `ctx.createBuffer` and filled by the
decode loop: channel count, sample rate, and the single channel's
normalized sample data (exact rationals; every `int16 / 32768` is exactly
representable in the underlying float32). -/
structure AudioBufferModel where
  numberOfChannels : Nat
  sampleRate : Nat
  channelData : List ℚ

/-- `decodeAudioData` from `WordDisplay.tsx` (lines 33-47): reinterpret
the bytes as int16 samples, build a mono buffer at 24,000 Hz with
`ctx.createBuffer(1, frameCount, 24000)` — which throws
`NotSupportedError` when the frame count is zero (`none`) — and fill it
with each sample divided by 32768. -/
def decodeAudioData (data : List Nat) : Option AudioBufferModel :=
  (bytesToInt16 data).bind fun samples =>
    if samples.isEmpty then none
    else
      some { numberOfChannels := 1
             sampleRate := 24000
             channelData := samples.map fun v : Int => (v : ℚ) / 32768 }

/-- Serialization of int16 samples to little-endian bytes (two's
complement), the encoding direction of the specification's PCM contract. -/
def int16ToLEBytes (n : Int) : List Nat :=
  [((n % 65536).toNat) % 256, ((n % 65536).toNat) / 256]

/-- Serialize a sample sequence to its little-endian int16 byte stream. -/
def pcmSerialize : List Int → List Nat
  | [] => []
  | n :: rest => int16ToLEBytes n ++ pcmSerialize rest

/-- Modelled from the spec: quantization of a normalized sample in
[-1.0, 1.0] to an int16 PCM value (round to nearest, clamped to the int16
range), the encoding half of P6's round trip. -/
def quantizeInt16 (x : ℚ) : Int :=
  max (-32768) (min 32767 (round (x * 32768)))

/-- The bridge's full decode path: `decodeBase64` followed by
`decodeAudioData`. -/
def decodePipeline (base64 : String) : Option AudioBufferModel :=
  (decodeBase64 base64).bind decodeAudioData

/-! ## Narration playback (`components/WordDisplay.tsx`) -/

/-- The component state of `WordDisplay` driving narration playback:
`isPlaying`, `isTtsLoading`, and whether `sourceNodeRef` currently holds a
source node. -/
structure PlayerState where
  isPlaying : Bool
  isTtsLoading : Bool
  hasSource : Bool

/-- Externally visible effects of one `handleReadAloud` invocation. -/
structure ReadAloudEffects where
  requestedAudio : Bool
  stoppedSource : Bool
  alerted : Bool
  startedPlayback : Bool
  loggedError : Bool

/-- The Idle / Loading / Playing narration state machine of the
specification, read off the component flags. -/
inductive NarrationState where
  | idle : NarrationState
  | loading : NarrationState
  | playing : NarrationState

/-- Map the component flags to the specification's narration state. -/
def narrState (st : PlayerState) : NarrationState :=
  if st.isTtsLoading then .loading
  else if st.isPlaying then .playing
  else .idle

/-- `handleReadAloud` from `WordDisplay.tsx` (lines 49-96) as a state
transition covering one complete invocation.  While playing, the source
is stopped and the invocation returns without requesting audio.
Otherwise the loading flag is raised, `generateAudio` awaited (its result
is the `gen` argument), the loading flag cleared; a missing payload
alerts and stays idle; then the decode path runs inside try/catch — a
decode exception is logged and playing is forced off, and on success the
source starts and playing is set. -/
def handleReadAloud (st : PlayerState) (gen : Option String) :
    PlayerState × ReadAloudEffects :=
  if st.isPlaying then
    ({ st with isPlaying := false, hasSource := false },
     { requestedAudio := false, stoppedSource := st.hasSource, alerted := false,
       startedPlayback := false, loggedError := false })
  else
    match gen with
    | none =>
      ({ st with isTtsLoading := false },
       { requestedAudio := true, stoppedSource := false, alerted := true,
         startedPlayback := false, loggedError := false })
    | some base64Audio =>
      match decodePipeline base64Audio with
      | none =>
        ({ st with isTtsLoading := false, isPlaying := false },
         { requestedAudio := true, stoppedSource := false, alerted := false,
           startedPlayback := false, loggedError := true })
      | some _ =>
        ({ st with isTtsLoading := false, isPlaying := true, hasSource := true },
         { requestedAudio := true, stoppedSource := false, alerted := false,
           startedPlayback := true, loggedError := false })

/-! ## Audio generation (`services/geminiService.ts`) -/

/-- The `inlineData` part of a generate-content response. -/
structure InlineData where
  data : Option String

/-- One part of a candidate's content. -/
structure GenPart where
  inlineData : Option InlineData

/-- A candidate's content. -/
structure GenContent where
  parts : Option (List GenPart)

/-- One response candidate. -/
structure GenCandidate where
  content : Option GenContent

/-- The response object of the audio generate-content call. -/
structure GenResponse where
  candidates : Option (List GenCandidate)

/-- Outcome of the awaited generate-content call inside `generateAudio`:
the transport either throws or resolves with a response object. -/
inductive GenOutcome where
  | throws : GenOutcome
  | ok : GenResponse → GenOutcome

/-- The body of `generateAudio` before its catch: propagate the transport
exception, or extract
`response.candidates?.[0]?.content?.parts?.[0]?.inlineData?.data` with
optional chaining (each missing link yields `undefined`). -/
def generateAudioBody : GenOutcome → Except Unit (Option String)
  | .throws => Except.error ()
  | .ok resp =>
    Except.ok <|
      (((((resp.candidates.bind fun cs => cs.head?).bind
            fun c => c.content).bind
              fun ct => ct.parts).bind
                fun ps => ps.head?).bind
                  fun p => p.inlineData).bind
                    fun d => d.data

/-- `generateAudio` from `geminiService.ts` (lines 63-84): the whole body
runs inside try/catch; an exception is logged and `undefined` returned, so
the caller only ever sees an optional payload string. -/
def generateAudio (outcome : GenOutcome) : Option String :=
  match generateAudioBody outcome with
  | .error _ => none
  | .ok d => d

/-! ## Voice input (`App.tsx`, `startVoiceSearch`) -/

/-- The recognizer-related state of the app: a counter supplying fresh
recognizer instances, the instance held by `recognitionRef`, and the set
of instances currently active (started and not yet stopped/ended). -/
structure VoiceState where
  nextId : Nat
  refId : Option Nat
  active : List Nat

/-- The initial voice state: no recognizer exists. -/
def initVoiceState : VoiceState := { nextId := 0, refId := none, active := [] }

/-- `startVoiceSearch` from `App.tsx` (lines 64-111) when the platform
supports speech recognition: stop the instance held by `recognitionRef`
(if any), then create a fresh instance, store it in the ref and start it. -/
def startVoiceSearch (s : VoiceState) : VoiceState :=
  let stopped := match s.refId with
    | some r => s.active.erase r
    | none => s.active
  { nextId := s.nextId + 1, refId := some s.nextId, active := s.nextId :: stopped }

/-- Events driving the recognizer lifecycle: the voice-search button with
a supporting or non-supporting platform, and a recognizer's `onend`
(fired on natural end, error, or after `stop`). -/
inductive VoiceEvent where
  | startSupported : VoiceEvent
  | startUnsupported : VoiceEvent
  | ended : Nat → VoiceEvent

/-- One step of the recognizer lifecycle.  An unsupported platform only
alerts; `onend` deactivates the instance that ended. -/
def voiceStep (s : VoiceState) (e : VoiceEvent) : VoiceState :=
  match e with
  | .startSupported => startVoiceSearch s
  | .startUnsupported => s
  | .ended r => { s with active := s.active.erase r }

/-- The voice state reached from startup by a sequence of events. -/
def voiceRun (evs : List VoiceEvent) : VoiceState :=
  evs.foldl voiceStep initVoiceState

/-- The inductive invariant of the recognizer lifecycle: every active
instance is the one held by `recognitionRef`, the active list has no
duplicates, and all known instances are older than the freshness
counter. -/
def VoiceInv (s : VoiceState) : Prop :=
  (∀ x ∈ s.active, s.refId = some x) ∧ s.active.Nodup ∧
  (∀ x ∈ s.active, x < s.nextId) ∧ (∀ r, s.refId = some r → r < s.nextId)

/-! ## Claim C8: blank queries are a complete no-op -/

/-- C8: for every query string that is empty or whitespace-only after
trimming, `performSearch` returns without invoking the lookup service
(second component `false`) and leaves the entire application state —
loading flag, displayed result, history list, persisted storage and all —
unchanged. -/
theorem c8_blank_query_noop (st : AppState) (q : String) (mode : SearchMode)
    (outcome : LookupOutcome) (now : Nat) (h : trimWs q.toList = []) :
    performSearch st q mode outcome now = (st, false) := by
  unfold performSearch
  rw [show trimWs q.toList = [] from h]
  simp

/-- Witness for C8 at a concrete whitespace-only query. -/
theorem c8_blank_query_noop_witness :
    performSearch ⟨none, false, Json.null, [], "", none, SearchMode.EN, false⟩
        " \t " SearchMode.EN LookupOutcome.networkFailure 0
      = (⟨none, false, Json.null, [], "", none, SearchMode.EN, false⟩, false) :=
  c8_blank_query_noop _ _ _ _ _ (by decide)

/-! ## Claim C6: the narration trigger toggles playback off -/

/-- C6: invoking `handleReadAloud` while the narration machine is in
Playing state (with the current source node present) stops that source,
transitions directly to Idle, and issues no audio-generation request and
no new playback during that invocation. -/
theorem c6_toggle_playing_stops (st : PlayerState) (gen : Option String)
    (hp : narrState st = NarrationState.playing) (hs : st.hasSource = true) :
    narrState (handleReadAloud st gen).1 = NarrationState.idle ∧
    (handleReadAloud st gen).2.stoppedSource = true ∧
    (handleReadAloud st gen).2.requestedAudio = false ∧
    (handleReadAloud st gen).2.startedPlayback = false := by
  rcases st with ⟨p, lo, src⟩
  simp only at hs
  subst hs
  cases lo
  · cases p
    · exact absurd hp (by simp [narrState])
    · simp [handleReadAloud, narrState]
  · exact absurd hp (by simp [narrState])

/-- Witness for C6 at a concrete playing state. -/
theorem c6_toggle_playing_stops_witness :
    narrState (handleReadAloud ⟨true, false, true⟩ none).1 = NarrationState.idle ∧
    (handleReadAloud ⟨true, false, true⟩ none).2.stoppedSource = true ∧
    (handleReadAloud ⟨true, false, true⟩ none).2.requestedAudio = false ∧
    (handleReadAloud ⟨true, false, true⟩ none).2.startedPlayback = false :=
  c6_toggle_playing_stops ⟨true, false, true⟩ none rfl rfl

/-! ## Claim C7: every narration failure path ends in Idle -/

/-- C7: when narration is triggered outside of Playing and the request
fails — the audio-generation call yields no payload, or the decode path
throws — a user-visible failure is surfaced (alert) or the error is
caught and logged, no playback starts, and the machine ends in Idle
(loading flag cleared, not playing). -/
theorem c7_failure_ends_idle (st : PlayerState) (gen : Option String)
    (hp : st.isPlaying = false)
    (hf : gen = none ∨ ∃ s, gen = some s ∧ decodePipeline s = none) :
    narrState (handleReadAloud st gen).1 = NarrationState.idle ∧
    ((handleReadAloud st gen).2.alerted = true ∨
      (handleReadAloud st gen).2.loggedError = true) ∧
    (handleReadAloud st gen).2.startedPlayback = false := by
  rcases hf with rfl | ⟨s, rfl, hd⟩
  · simp [handleReadAloud, narrState, hp]
  · simp [handleReadAloud, narrState, hp, hd]

/-- Witness for C7: a malformed base64 payload triggered from Idle. -/
theorem c7_failure_ends_idle_witness :
    narrState (handleReadAloud ⟨false, false, false⟩ (some "!")).1 = NarrationState.idle ∧
    ((handleReadAloud ⟨false, false, false⟩ (some "!")).2.alerted = true ∨
      (handleReadAloud ⟨false, false, false⟩ (some "!")).2.loggedError = true) ∧
    (handleReadAloud ⟨false, false, false⟩ (some "!")).2.startedPlayback = false :=
  c7_failure_ends_idle ⟨false, false, false⟩ _ rfl (Or.inr ⟨"!", rfl, rfl⟩)

/-! ## Claim C10: `generateAudio` is total at its interface -/

/-- C10: `generateAudio` never propagates an exception — its body's
exception is caught and turned into `undefined` (`none`), a resolved body
value passes through unchanged, and a transport failure is
indistinguishable at the interface from a response with no payload. -/
theorem c10_generate_audio_total :
    (∀ o e, generateAudioBody o = Except.error e → generateAudio o = none) ∧
    (∀ o d, generateAudioBody o = Except.ok d → generateAudio o = d) ∧
    generateAudio GenOutcome.throws
      = generateAudio (GenOutcome.ok { candidates := none }) := by
  refine ⟨fun o e h => ?_, fun o d h => ?_, rfl⟩
  · simp [generateAudio, h]
  · simp [generateAudio, h]

/-- Witness for C10: the transport-throwing outcome maps to `none`. -/
theorem c10_generate_audio_total_witness :
    generateAudio GenOutcome.throws = none :=
  c10_generate_audio_total.1 GenOutcome.throws () rfl

/-! ## Claim C9: never two concurrently active recognizers -/

theorem voiceInv_init : VoiceInv initVoiceState := by
  refine ⟨?_, ?_, ?_, ?_⟩ <;> simp [initVoiceState]

theorem voiceInv_length_le_one {s : VoiceState} (h : VoiceInv s) :
    s.active.length ≤ 1 := by
  obtain ⟨h1, h2, -, -⟩ := h
  rcases hact : s.active with - | ⟨a, - | ⟨b, tl⟩⟩
  · simp
  · simp
  · exfalso
    have ha := h1 a (by rw [hact]; exact List.mem_cons_self a _)
    have hb := h1 b (by rw [hact]; simp)
    rw [ha] at hb
    cases Option.some.inj hb
    rw [hact] at h2
    rcases List.nodup_cons.mp h2 with ⟨hnb, -⟩
    exact hnb (List.mem_cons_self a tl)

theorem voiceInv_stopped_nil {s : VoiceState} (h : VoiceInv s) :
    (match s.refId with
     | some r => s.active.erase r
     | none => s.active) = [] := by
  have hlen := voiceInv_length_le_one h
  obtain ⟨h1, -, -, -⟩ := h
  rcases hact : s.active with - | ⟨a, tl⟩
  · cases s.refId <;> simp
  · have htl : tl = [] := by
      rw [hact] at hlen
      simp only [List.length_cons] at hlen
      exact List.eq_nil_of_length_eq_zero (by omega)
    have ha := h1 a (by rw [hact]; exact List.mem_cons_self a _)
    rw [ha, htl]
    simp [List.erase_cons_head]

theorem voiceInv_step {s : VoiceState} (e : VoiceEvent) (h : VoiceInv s) :
    VoiceInv (voiceStep s e) := by
  obtain ⟨h1, h2, h3, h4⟩ := h
  cases e with
  | startSupported =>
    have hnil := voiceInv_stopped_nil ⟨h1, h2, h3, h4⟩
    refine ⟨?_, ?_, ?_, ?_⟩ <;>
      simp [voiceStep, startVoiceSearch, hnil]
  | startUnsupported => exact ⟨h1, h2, h3, h4⟩
  | ended r =>
    refine ⟨?_, ?_, ?_, ?_⟩
    · intro x hx
      exact h1 x (List.mem_of_mem_erase hx)
    · exact h2.erase r
    · intro x hx
      exact h3 x (List.mem_of_mem_erase hx)
    · exact h4

theorem voiceInv_run (evs : List VoiceEvent) : VoiceInv (voiceRun evs) := by
  have : ∀ (l : List VoiceEvent) (s : VoiceState),
      VoiceInv s → VoiceInv (l.foldl voiceStep s) := by
    intro l
    induction l with
    | nil => exact fun s hs => hs
    | cons e tl ih => exact fun s hs => ih _ (voiceInv_step e hs)
  exact this evs initVoiceState voiceInv_init

/-- C9: along every event sequence from startup, at most one recognizer
instance is active at a time; moreover, starting a voice session from any
reachable state first stops the previously active instance, so that
afterwards only the freshly created instance is active. -/
theorem c9_single_active_recognizer (evs : List VoiceEvent) :
    (voiceRun evs).active.length ≤ 1 ∧
    ∀ x ∈ (voiceStep (voiceRun evs) VoiceEvent.startSupported).active,
      x = (voiceRun evs).nextId := by
  have hinv := voiceInv_run evs
  refine ⟨voiceInv_length_le_one hinv, ?_⟩
  have hnil := voiceInv_stopped_nil hinv
  intro x hx
  simp [voiceStep, startVoiceSearch, hnil] at hx
  exact hx

/-! ## Claim C3: record semantics of the history store -/

theorem jsStrictEq_str (x : Option Json) (w : String) :
    jsStrictEq x (some (Json.str w)) = true ↔ x = some (Json.str w) := by
  rcases x with - | j
  · simp [jsStrictEq]
  · cases j <;> simp [jsStrictEq]

theorem jsStrictEq_str_false {x : Option Json} {w : String}
    (h : x ≠ some (Json.str w)) : jsStrictEq x (some (Json.str w)) = false := by
  rcases hb : jsStrictEq x (some (Json.str w)) with - | -
  · rfl
  · exact absurd ((jsStrictEq_str x w).mp hb) h

theorem addToHistory_small (h : List HistoryItem) (w : Option Json) (now : Nat)
    (hlen : h.length ≤ 49) :
    addToHistory h w now
      = { word := w, timestamp := now } :: h.filter fun it => !jsStrictEq it.word w := by
  unfold addToHistory
  apply List.take_of_length_le
  have := List.length_filter_le (fun it => !jsStrictEq it.word w) h
  simp only [List.length_cons]
  omega

theorem filter_map_itemOfS (h : List HistoryItemS) (w : String) :
    (h.map itemOfS).filter (fun it => !jsStrictEq it.word (some (Json.str w)))
      = (h.filter fun it => decide (it.word ≠ w)).map itemOfS := by
  induction h with
  | nil => rfl
  | cons x xs ih =>
    rcases eq_or_ne x.word w with hx | hx
    · have hc : jsStrictEq (itemOfS x).word (some (Json.str w)) = true :=
        (jsStrictEq_str _ _).mpr (by simp [itemOfS, hx])
      simp [List.map_cons, List.filter_cons, hc, hx, ih]
    · have hc : jsStrictEq (itemOfS x).word (some (Json.str w)) = false :=
        jsStrictEq_str_false (by simp [itemOfS, hx])
      simp [List.map_cons, List.filter_cons, hc, hx, ih]

/-- C3: `addToHistory` refines the specification's `record`: it removes
any existing entry with the same word (case-sensitive exact match),
prepends a new entry carrying the current timestamp, then truncates to the
first 50 entries; and recording the words `[a, b, a, c]` in sequence into
an empty history yields exactly the words `[c, a, b]`, most recent first,
each word unique. -/
theorem c3_record_dedup_prepend_cap :
    (∀ (h : List HistoryItemS) (w : String) (now : Nat),
       (recordSpec h w now).map itemOfS
         = addToHistory (h.map itemOfS) (some (Json.str w)) now) ∧
    (∀ (a b c : String) (t1 t2 t3 t4 : Nat), a ≠ b → a ≠ c → b ≠ c →
       (addToHistory (addToHistory (addToHistory (addToHistory []
            (some (Json.str a)) t1) (some (Json.str b)) t2)
            (some (Json.str a)) t3) (some (Json.str c)) t4).map (fun it => it.word)
         = [some (Json.str c), some (Json.str a), some (Json.str b)]) := by
  constructor
  · intro h w now
    unfold recordSpec addToHistory
    rw [List.map_take, List.map_cons, filter_map_itemOfS]
    rfl
  · intro a b c t1 t2 t3 t4 hab hac hbc
    have eab : jsStrictEq (some (Json.str a)) (some (Json.str b)) = false :=
      jsStrictEq_str_false (by simpa using hab)
    have eba : jsStrictEq (some (Json.str b)) (some (Json.str a)) = false :=
      jsStrictEq_str_false (by simpa using hab.symm)
    have eac : jsStrictEq (some (Json.str a)) (some (Json.str c)) = false :=
      jsStrictEq_str_false (by simpa using hac)
    have ebc : jsStrictEq (some (Json.str b)) (some (Json.str c)) = false :=
      jsStrictEq_str_false (by simpa using hbc)
    have eaa : jsStrictEq (some (Json.str a)) (some (Json.str a)) = true :=
      (jsStrictEq_str _ _).mpr rfl
    have s1 : addToHistory [] (some (Json.str a)) t1
        = [⟨some (Json.str a), t1⟩] := by
      rw [addToHistory_small _ _ _ (by simp)]
      rfl
    have s2 : addToHistory [(⟨some (Json.str a), t1⟩ : HistoryItem)]
        (some (Json.str b)) t2
        = [⟨some (Json.str b), t2⟩, ⟨some (Json.str a), t1⟩] := by
      rw [addToHistory_small _ _ _ (by simp)]
      simp [List.filter_cons, eab]
    have s3 : addToHistory
        [(⟨some (Json.str b), t2⟩ : HistoryItem), ⟨some (Json.str a), t1⟩]
        (some (Json.str a)) t3
        = [⟨some (Json.str a), t3⟩, ⟨some (Json.str b), t2⟩] := by
      rw [addToHistory_small _ _ _ (by simp)]
      simp [List.filter_cons, eba, eaa]
    have s4 : addToHistory
        [(⟨some (Json.str a), t3⟩ : HistoryItem), ⟨some (Json.str b), t2⟩]
        (some (Json.str c)) t4
        = [⟨some (Json.str c), t4⟩, ⟨some (Json.str a), t3⟩,
           ⟨some (Json.str b), t2⟩] := by
      rw [addToHistory_small _ _ _ (by simp)]
      simp [List.filter_cons, eac, ebc]
    rw [s1, s2, s3, s4]
    rfl

/-- Witness for C3's dedup-order scenario at concrete words and times. -/
theorem c3_record_dedup_prepend_cap_witness :
    (addToHistory (addToHistory (addToHistory (addToHistory []
        (some (Json.str "a")) 1) (some (Json.str "b")) 2)
        (some (Json.str "a")) 3) (some (Json.str "c")) 4).map (fun it => it.word)
      = [some (Json.str "c"), some (Json.str "a"), some (Json.str "b")] :=
  c3_record_dedup_prepend_cap.2 "a" "b" "c" 1 2 3 4
    (by decide) (by decide) (by decide)

/-! ## Claim C4: history invariants along arbitrary record sequences -/

theorem addToHistory_length_le (h : List HistoryItem) (w : Option Json) (now : Nat) :
    (addToHistory h w now).length ≤ 50 := by
  unfold addToHistory
  exact List.length_take_le 50 _

theorem addToHistory_sublist (h : List HistoryItem) (w : Option Json) (now : Nat) :
    (addToHistory h w now).Sublist
      ({ word := w, timestamp := now } :: h.filter fun it => !jsStrictEq it.word w) :=
  List.take_sublist 50 _

theorem processOps_core :
    ∀ (ops : List (String × Nat)) (acc : List HistoryItem),
      (∀ it ∈ acc, ∃ s, it.word = some (Json.str s)) →
      acc.length ≤ 50 →
      (acc.map fun it => it.word).Nodup →
      List.Pairwise (· > ·) (acc.map fun it => it.timestamp) →
      (∀ it ∈ acc, ∀ p ∈ ops, it.timestamp < p.2) →
      List.Pairwise (· < ·) (ops.map Prod.snd) →
      (ops.foldl (fun h p => addToHistory h (some (Json.str p.1)) p.2) acc).length ≤ 50 ∧
      ((ops.foldl (fun h p => addToHistory h (some (Json.str p.1)) p.2) acc).map
        fun it => it.word).Nodup ∧
      List.Pairwise (· > ·)
        ((ops.foldl (fun h p => addToHistory h (some (Json.str p.1)) p.2) acc).map
          fun it => it.timestamp) := by
  intro ops
  induction ops with
  | nil => exact fun acc _ h2 h3 h4 _ _ => ⟨h2, h3, h4⟩
  | cons p rest ih =>
    intro acc h1 h2 h3 h4 h5 h6
    obtain ⟨w, t⟩ := p
    simp only [List.foldl_cons]
    have hsub := addToHistory_sublist acc (some (Json.str w)) t
    have hFsub : (acc.filter fun it => !jsStrictEq it.word (some (Json.str w))).Sublist acc :=
      List.filter_sublist acc
    simp only [List.map_cons] at h6
    have h6c := List.pairwise_cons.mp h6
    apply ih
    · intro it hit
      rcases List.mem_cons.mp (hsub.subset hit) with rfl | hmem
      · exact ⟨w, rfl⟩
      · exact h1 it (hFsub.subset hmem)
    · exact addToHistory_length_le acc _ t
    · refine List.Nodup.sublist (hsub.map fun it => it.word) ?_
      rw [List.map_cons]
      refine List.nodup_cons.mpr ⟨?_, List.Nodup.sublist (hFsub.map _) h3⟩
      intro hmem
      obtain ⟨it, hitF, hitw⟩ := List.mem_map.mp hmem
      have hcond := List.of_mem_filter hitF
      rw [(jsStrictEq_str _ _).mpr hitw] at hcond
      simp at hcond
    · refine List.Pairwise.sublist (hsub.map fun it => it.timestamp) ?_
      rw [List.map_cons]
      refine List.pairwise_cons.mpr ⟨?_, List.Pairwise.sublist (hFsub.map _) h4⟩
      intro b hb
      obtain ⟨it, hitF, hitts⟩ := List.mem_map.mp hb
      rw [← hitts]
      exact h5 it (hFsub.subset hitF) (w, t) (List.mem_cons_self _ _)
    · intro it hit p' hp'
      rcases List.mem_cons.mp (hsub.subset hit) with rfl | hmem
      · exact h6c.1 p'.2 (List.mem_map_of_mem Prod.snd hp')
      · exact h5 it (hFsub.subset hmem) p' (List.mem_cons_of_mem _ hp')
    · exact h6c.2

theorem take_append_take {α : Type} (X Y : List α) (n : Nat) :
    (X ++ Y.take n).take n = (X ++ Y).take n := by
  rw [List.take_append_eq_append_take, List.take_append_eq_append_take,
      List.take_take, min_eq_left (Nat.sub_le n X.length)]

theorem processOps_words_aux :
    ∀ (ops : List (String × Nat)) (acc : List HistoryItem),
      (ops.map Prod.fst).Nodup →
      (∀ p ∈ ops, ∀ it ∈ acc, it.word ≠ some (Json.str p.1)) →
      acc.length ≤ 50 →
      ((ops.foldl (fun h p => addToHistory h (some (Json.str p.1)) p.2) acc).map
        fun it => it.word)
        = ((ops.map fun p => some (Json.str p.1)).reverse ++
            acc.map fun it => it.word).take 50 := by
  intro ops
  induction ops with
  | nil =>
    intro acc _ _ hlen
    simp [List.take_of_length_le, hlen]
  | cons p rest ih =>
    intro acc hnd hfree hlen
    obtain ⟨w, t⟩ := p
    simp only [List.map_cons] at hnd
    have hndc := List.nodup_cons.mp hnd
    have hfilter : acc.filter (fun it => !jsStrictEq it.word (some (Json.str w))) = acc := by
      apply List.filter_eq_self.mpr
      intro it hit
      have := hfree (w, t) (List.mem_cons_self _ _) it hit
      simp [jsStrictEq_str_false this]
    have hA : addToHistory acc (some (Json.str w)) t
        = ({ word := some (Json.str w), timestamp := t } :: acc).take 50 := by
      unfold addToHistory
      rw [hfilter]
    simp only [List.foldl_cons]
    rw [ih (addToHistory acc (some (Json.str w)) t) hndc.2 ?free ?len]
    case free =>
      intro p' hp' it hit
      rw [hA] at hit
      rcases List.mem_cons.mp ((List.take_sublist _ _).subset hit) with rfl | hmem
      · intro hcontra
        apply hndc.1
        have : w = p'.1 := by
          have := Option.some.inj hcontra
          exact Json.str.inj this
        rw [this]
        exact List.mem_map_of_mem Prod.fst hp'
      · exact hfree p' (List.mem_cons_of_mem _ hp') it hmem
    case len => exact addToHistory_length_le acc _ t
    rw [hA, List.map_take, List.map_cons, take_append_take]
    congr 1
    simp

/-- C4: for every sequence of record operations with strictly increasing
timestamps, starting from the empty history, the resulting history has at
most 50 items, no two items share a word, and items are strictly ordered
by recency (timestamps strictly decreasing); when the recorded words are
pairwise distinct the resulting word list is exactly the most recently
recorded words, most recent first, truncated to 50 — in particular 55
distinct words leave exactly 50 entries. -/
theorem c4_history_invariants (ops : List (String × Nat))
    (hts : List.Pairwise (· < ·) (ops.map Prod.snd)) :
    (processOps ops).length ≤ 50 ∧
    ((processOps ops).map fun it => it.word).Nodup ∧
    List.Pairwise (· > ·) ((processOps ops).map fun it => it.timestamp) ∧
    ((ops.map Prod.fst).Nodup →
      (processOps ops).map (fun it => it.word)
        = ((ops.map fun p => some (Json.str p.1)).reverse).take 50 ∧
      (50 ≤ ops.length → (processOps ops).length = 50)) := by
  have hcore := processOps_core ops [] (by simp) (by simp) (by simp) (by simp)
    (by simp) hts
  refine ⟨hcore.1, hcore.2.1, hcore.2.2, fun hnd => ?_⟩
  have hwords := processOps_words_aux ops [] hnd (by simp) (by simp)
  have hwords' : (processOps ops).map (fun it => it.word)
      = ((ops.map fun p => some (Json.str p.1)).reverse).take 50 := by
    rw [processOps, hwords]
    simp
  refine ⟨hwords', fun hlen => ?_⟩
  have hlencong := congrArg List.length hwords'
  simp only [List.length_map, List.length_take, List.length_reverse] at hlencong
  omega

/-- Witness for C4 at a concrete two-record sequence. -/
theorem c4_history_invariants_witness :
    (processOps [("a", 1), ("b", 2)]).length ≤ 50 :=
  (c4_history_invariants [("a", 1), ("b", 2)] (by decide)).1

/-! ## Claim C1: error behaviour of the lookup parse step -/

theorem head?_take_pos {α : Type} (l : List α) (n : Nat) (hn : 0 < n) :
    (l.take n).head? = l.head? := by
  rcases n with - | m
  · omega
  · rcases l with - | ⟨x, xs⟩ <;> rfl

theorem addToHistory_head (h : List HistoryItem) (w : Option Json) (now : Nat) :
    (addToHistory h w now).head? = some { word := w, timestamp := now } := by
  unfold addToHistory
  rw [head?_take_pos _ _ (by omega)]
  rfl

/-- C1 counterexample: the payload `"\x7b\x7d"` (an empty JSON object) is
valid JSON omitting the required `word` field, yet the parse step of
`lookupWord` succeeds with the partial object instead of failing with
`InvalidResponse` — `JSON.parse`'s result is returned without any schema
validation. -/
theorem c1_counterexample :
    parseLookupResponse "\x7b\x7d" = Except.ok (Json.obj []) ∧
    jsonGet (Json.obj []) "word" = none :=
  ⟨rfl, rfl⟩

/-- C1 (amended): if the payload text is not valid JSON, lookup fails with
`InvalidResponse`, no `WordDefinition` reaches the result state, and no
history entry is recorded (history and persisted storage unchanged,
loading cleared); but a payload that parses as JSON is returned as-is
without validation of required fields, so a successful parse of a
non-null value always stores the parsed object and records a history
entry whose word is the payload's `word` field — `undefined` when that
field is absent. -/
theorem c1_parse_all_or_nothing (st : AppState) (q : String) (mode : SearchMode)
    (text : String) (now : Nat) (hq : trimWs q.toList ≠ []) :
    (∀ e, parseLookupResponse text = Except.error e →
      (performSearch st q mode (LookupOutcome.payload text) now).1.history = st.history ∧
      (performSearch st q mode (LookupOutcome.payload text) now).1.storage = st.storage ∧
      (performSearch st q mode (LookupOutcome.payload text) now).1.result = st.result ∧
      (performSearch st q mode (LookupOutcome.payload text) now).1.loading = false) ∧
    (∀ j, parseLookupResponse text = Except.ok j → j ≠ Json.null →
      (performSearch st q mode (LookupOutcome.payload text) now).1.result = j ∧
      (performSearch st q mode (LookupOutcome.payload text) now).1.history.head?
        = some { word := jsonGet j "word", timestamp := now } ∧
      (performSearch st q mode (LookupOutcome.payload text) now).1.storage
        = some (performSearch st q mode (LookupOutcome.payload text) now).1.history) := by
  have hqd : ¬(trimWs q.data = []) := hq
  constructor
  · intro e he
    simp [performSearch, hqd, he]
  · intro j hj hnull
    cases j with
    | null => exact absurd rfl hnull
    | bool b => simp [performSearch, hqd, hj, addToHistory_head]
    | num s => simp [performSearch, hqd, hj, addToHistory_head]
    | str s => simp [performSearch, hqd, hj, addToHistory_head]
    | arr xs => simp [performSearch, hqd, hj, addToHistory_head]
    | obj fs => simp [performSearch, hqd, hj, addToHistory_head]

/-- Witness for C1's amended theorem: a malformed payload leaves state
framed, and the empty-object payload records an entry with an undefined
word. -/
theorem c1_parse_all_or_nothing_witness :
    (performSearch ⟨none, false, Json.null, [], "", none, SearchMode.EN, false⟩
        "hi" SearchMode.EN (LookupOutcome.payload "not json") 0).1.history
      = ([] : List HistoryItem) ∧
    (performSearch ⟨none, false, Json.null, [], "", none, SearchMode.EN, false⟩
        "hi" SearchMode.EN (LookupOutcome.payload "\x7b\x7d") 5).1.history.head?
      = some { word := none, timestamp := 5 } :=
  ⟨((c1_parse_all_or_nothing _ "hi" SearchMode.EN "not json" 0 (by decide)).1
      LookupError.invalidResponse rfl).1,
   ((c1_parse_all_or_nothing _ "hi" SearchMode.EN "\x7b\x7d" 5 (by decide)).2
      (Json.obj []) rfl (fun h => nomatch h)).2.1⟩

/-! ## Claim C5: the PCM decode path and its round trip -/

theorem b64CharVal_ofNat : ∀ v : Nat, v < 64 → b64CharVal (b64CharOfNat v) = some v := by
  decide

theorem b64CharOfNat_ne_pad : ∀ v : Nat, v < 64 → b64CharOfNat v ≠ '=' := by
  decide

theorem b64CharOfNat_not_ws : ∀ v : Nat, v < 64 → isAsciiWs (b64CharOfNat v) = false := by
  decide

theorem b64Encode_not_ws : ∀ (bytes : List Nat), (∀ b ∈ bytes, b < 256) →
    ∀ c ∈ b64Encode bytes, isAsciiWs c = false
  | [], _ => by
    intro c hc
    simp [b64Encode] at hc
  | [b0], h => by
    intro c hc
    have h0 : b0 < 256 := h b0 (by simp)
    simp only [b64Encode, List.mem_cons, List.not_mem_nil, or_false] at hc
    rcases hc with rfl | rfl | rfl | rfl
    · exact b64CharOfNat_not_ws _ (by omega)
    · exact b64CharOfNat_not_ws _ (by omega)
    · rfl
    · rfl
  | [b0, b1], h => by
    intro c hc
    have h0 : b0 < 256 := h b0 (by simp)
    have h1 : b1 < 256 := h b1 (by simp)
    simp only [b64Encode, List.mem_cons, List.not_mem_nil, or_false] at hc
    rcases hc with rfl | rfl | rfl | rfl
    · exact b64CharOfNat_not_ws _ (by omega)
    · exact b64CharOfNat_not_ws _ (by omega)
    · exact b64CharOfNat_not_ws _ (by omega)
    · rfl
  | b0 :: b1 :: b2 :: rest, h => by
    intro c hc
    have h0 : b0 < 256 := h b0 (by simp)
    have h1 : b1 < 256 := h b1 (by simp)
    have h2 : b2 < 256 := h b2 (by simp)
    simp only [b64Encode, List.mem_cons] at hc
    rcases hc with rfl | rfl | rfl | rfl | hc
    · exact b64CharOfNat_not_ws _ (by omega)
    · exact b64CharOfNat_not_ws _ (by omega)
    · exact b64CharOfNat_not_ws _ (by omega)
    · exact b64CharOfNat_not_ws _ (by omega)
    · exact b64Encode_not_ws rest (fun b hb => h b (by simp [hb])) c hc

theorem b64_roundtrip : ∀ (bytes : List Nat), (∀ b ∈ bytes, b < 256) →
    b64DecodeChars (b64Encode bytes) = some bytes
  | [], _ => rfl
  | [b0], h => by
    have h0 : b0 < 256 := h b0 (by simp)
    have e0 := b64CharVal_ofNat (b0 / 4) (by omega)
    have e1 := b64CharVal_ofNat (b0 % 4 * 16) (by omega)
    simp only [b64Encode, b64DecodeChars, e0, e1]
    simp
    omega
  | [b0, b1], h => by
    have h0 : b0 < 256 := h b0 (by simp)
    have h1 : b1 < 256 := h b1 (by simp)
    have e0 := b64CharVal_ofNat (b0 / 4) (by omega)
    have e1 := b64CharVal_ofNat (b0 % 4 * 16 + b1 / 16) (by omega)
    have e2 := b64CharVal_ofNat (b1 % 16 * 4) (by omega)
    have n2 := b64CharOfNat_ne_pad (b1 % 16 * 4) (by omega)
    simp only [b64Encode, b64DecodeChars, e0, e1, e2, if_neg n2]
    simp
    omega
  | b0 :: b1 :: b2 :: rest, h => by
    have h0 : b0 < 256 := h b0 (by simp)
    have h1 : b1 < 256 := h b1 (by simp)
    have h2 : b2 < 256 := h b2 (by simp)
    have hr := b64_roundtrip rest (fun b hb => h b (by simp [hb]))
    have e0 := b64CharVal_ofNat (b0 / 4) (by omega)
    have e1 := b64CharVal_ofNat (b0 % 4 * 16 + b1 / 16) (by omega)
    have e2 := b64CharVal_ofNat (b1 % 16 * 4 + b2 / 64) (by omega)
    have e3 := b64CharVal_ofNat (b2 % 64) (by omega)
    have n2 := b64CharOfNat_ne_pad (b1 % 16 * 4 + b2 / 64) (by omega)
    have n3 := b64CharOfNat_ne_pad (b2 % 64) (by omega)
    rcases rest with - | ⟨b3, rest'⟩
    · simp only [b64Encode, b64DecodeChars, e0, e1, e2, e3, if_neg n2, if_neg n3]
      have g0 : b0 / 4 * 4 + (b0 % 4 * 16 + b1 / 16) / 16 = b0 := by omega
      have g1 : (b0 % 4 * 16 + b1 / 16) % 16 * 16 + (b1 % 16 * 4 + b2 / 64) / 4 = b1 := by
        omega
      have g2 : (b1 % 16 * 4 + b2 / 64) % 4 * 64 + b2 % 64 = b2 := by omega
      simp [g0, g1, g2]
    · have hcons : ∃ c cs, b64Encode (b3 :: rest') = c :: cs := by
        rcases rest' with - | ⟨b4, - | ⟨b5, rest''⟩⟩ <;>
          exact ⟨_, _, rfl⟩
      obtain ⟨c, cs, hc⟩ := hcons
      simp only [b64Encode, hc, b64DecodeChars, e0, e1, e2, e3, if_neg n2, if_neg n3]
      rw [← hc, hr]
      have g0 : b0 / 4 * 4 + (b0 % 4 * 16 + b1 / 16) / 16 = b0 := by omega
      have g1 : (b0 % 4 * 16 + b1 / 16) % 16 * 16 + (b1 % 16 * 4 + b2 / 64) / 4 = b1 := by
        omega
      have g2 : (b1 % 16 * 4 + b2 / 64) % 4 * 64 + b2 % 64 = b2 := by omega
      simp [g0, g1, g2]

theorem int16ToLEBytes_lt (n : Int) : ∀ b ∈ int16ToLEBytes n, b < 256 := by
  intro b hb
  have hu : (n % 65536).toNat < 65536 := by omega
  simp only [int16ToLEBytes, List.mem_cons, List.not_mem_nil, or_false] at hb
  rcases hb with rfl | rfl <;> omega

theorem pcmSerialize_lt : ∀ (ns : List Int), ∀ b ∈ pcmSerialize ns, b < 256 := by
  intro ns
  induction ns with
  | nil => intro b hb; simp [pcmSerialize] at hb
  | cons n rest ih =>
    intro b hb
    simp only [pcmSerialize, List.mem_append] at hb
    rcases hb with hb | hb
    · exact int16ToLEBytes_lt n b hb
    · exact ih b hb

theorem bytesToInt16_serialize : ∀ (ns : List Int),
    (∀ n ∈ ns, -32768 ≤ n ∧ n < 32768) →
    bytesToInt16 (pcmSerialize ns) = some ns := by
  intro ns
  induction ns with
  | nil => intro _; rfl
  | cons n rest ih =>
    intro h
    have hn := h n (List.mem_cons_self _ _)
    have hrest := ih (fun m hm => h m (List.mem_cons_of_mem _ hm))
    simp only [pcmSerialize, int16ToLEBytes, List.cons_append, List.nil_append,
      bytesToInt16, List.append_eq, List.nil_append, hrest, Option.map_some]
    have hmod : (n % 65536).toNat % 256 + 256 * ((n % 65536).toNat / 256)
        = (n % 65536).toNat := by omega
    rw [hmod]
    have hval : (if (n % 65536).toNat < 32768 then ((n % 65536).toNat : Int)
        else ((n % 65536).toNat : Int) - 65536) = n := by
      split <;> omega
    rw [hval]
    rfl

theorem decodePipeline_serialize (ns : List Int) (hne : ns ≠ [])
    (h : ∀ n ∈ ns, -32768 ≤ n ∧ n < 32768) :
    decodePipeline (String.mk (b64Encode (pcmSerialize ns)))
      = some { numberOfChannels := 1, sampleRate := 24000,
               channelData := ns.map fun n : Int => (n : ℚ) / 32768 } := by
  unfold decodePipeline decodeBase64
  rw [show (String.mk (b64Encode (pcmSerialize ns))).toList
      = b64Encode (pcmSerialize ns) from rfl]
  rw [List.filter_eq_self.mpr (fun c hc => by
    rw [b64Encode_not_ws (pcmSerialize ns) (pcmSerialize_lt ns) c hc]
    rfl)]
  rw [b64_roundtrip _ (pcmSerialize_lt ns)]
  have hse : ns.isEmpty = false := by
    rcases ns with - | ⟨n, rest⟩
    · exact absurd rfl hne
    · rfl
  simp [decodeAudioData, bytesToInt16_serialize ns h, hse, hne]

theorem quantizeInt16_range (x : ℚ) (_h1 : -1 ≤ x) (_h2 : x ≤ 1) :
    -32768 ≤ quantizeInt16 x ∧ quantizeInt16 x < 32768 := by
  unfold quantizeInt16
  refine ⟨le_max_left _ _, ?_⟩
  have hm : min 32767 (round (x * 32768)) ≤ 32767 := min_le_left _ _
  exact max_lt (by norm_num) (lt_of_le_of_lt hm (by norm_num))

theorem quantizeInt16_err (x : ℚ) (h1 : -1 ≤ x) (h2 : x ≤ 1) :
    |((quantizeInt16 x : ℤ) : ℚ) / 32768 - x| ≤ 1 / 32768 := by
  have hr : |x * 32768 - (round (x * 32768) : ℚ)| ≤ 1 / 2 := by
    have habs := abs_sub_round (x * 32768)
    exact habs
  obtain ⟨hrl, hru⟩ := abs_le.mp hr
  set r : ℤ := round (x * 32768) with hrdef
  have hrle : r ≤ 32768 := by
    have hx : x * 32768 ≤ 32768 := by linarith
    have hq : (r : ℚ) < 32769 := by linarith
    have : r < 32769 := by exact_mod_cast hq
    omega
  have hrge : -32768 ≤ r := by
    have hx : -32768 ≤ x * 32768 := by linarith
    have hq : (-32769 : ℚ) < r := by linarith
    have : (-32769 : ℤ) < r := by exact_mod_cast hq
    omega
  unfold quantizeInt16
  rw [← hrdef]
  have hmin : (-32768 : ℤ) ≤ min 32767 r := le_min (by norm_num) hrge
  rw [max_eq_right hmin]
  by_cases hc : r ≤ 32767
  · rw [min_eq_right hc]
    rw [abs_le]
    constructor <;> linarith
  · have hre : r = 32768 := by omega
    rw [min_eq_left (by omega)]
    rw [hre] at hrl hru
    push_cast
    rw [abs_le]
    constructor <;> linarith

/-- C5 counterexample: at the empty sample sequence the decode path
fails rather than producing an (empty) buffer — the serialized byte
stream is empty, so the decoded frame count is zero and
`ctx.createBuffer(1, 0, 24000)` throws `NotSupportedError` (modelled as
`none`), falsifying the for-every-sequence claim at the empty list. -/
theorem c5_counterexample :
    decodePipeline (String.mk (b64Encode (pcmSerialize ([] : List Int)))) = none :=
  rfl

/-- C5 (amended): decoding the base64 encoding of any nonempty
little-endian int16 PCM byte stream through `decodeBase64` and
`decodeAudioData` yields a mono 24,000 Hz buffer whose i-th sample is
exactly the i-th int16 sample divided by 32768 (at the empty sequence
the zero-frame buffer construction throws instead); hence quantizing any
nonempty normalized sample sequence in [-1, 1] to int16 PCM,
base64-encoding and decoding it reproduces the original samples within
quantization error at most 1/32768. -/
theorem c5_pcm_decode_roundtrip :
    (∀ (ns : List Int), ns ≠ [] → (∀ n ∈ ns, -32768 ≤ n ∧ n < 32768) →
      decodePipeline (String.mk (b64Encode (pcmSerialize ns)))
        = some { numberOfChannels := 1, sampleRate := 24000,
                 channelData := ns.map fun n : Int => (n : ℚ) / 32768 }) ∧
    (∀ (xs : List ℚ), xs ≠ [] → (∀ x ∈ xs, -1 ≤ x ∧ x ≤ 1) →
      ∃ buf : AudioBufferModel,
        decodePipeline (String.mk (b64Encode (pcmSerialize (xs.map quantizeInt16))))
          = some buf ∧
        buf.numberOfChannels = 1 ∧ buf.sampleRate = 24000 ∧
        List.Forall₂ (fun s x => |s - x| ≤ 1 / 32768) buf.channelData xs) := by
  refine ⟨decodePipeline_serialize, fun xs hxne h => ?_⟩
  refine ⟨_, decodePipeline_serialize (xs.map quantizeInt16)
    (fun hm => hxne (List.map_eq_nil_iff.mp hm)) ?_, rfl, rfl, ?_⟩
  · intro n hn
    obtain ⟨x, hx, rfl⟩ := List.mem_map.mp hn
    exact quantizeInt16_range x (h x hx).1 (h x hx).2
  · rw [List.map_map]
    have : ∀ (ys : List ℚ), (∀ x ∈ ys, -1 ≤ x ∧ x ≤ 1) →
        List.Forall₂ (fun s x => |s - x| ≤ 1 / 32768)
          (ys.map ((fun n : ℤ => (n : ℚ) / 32768) ∘ quantizeInt16)) ys := by
      intro ys
      induction ys with
      | nil => exact fun _ => List.Forall₂.nil
      | cons y ts ihh =>
        intro hys
        refine List.Forall₂.cons ?_ (ihh fun z hz => hys z (List.mem_cons_of_mem _ hz))
        exact quantizeInt16_err y (hys y (List.mem_cons_self _ _)).1
          (hys y (List.mem_cons_self _ _)).2
    exact this xs h

/-- Witness for C5 at the concrete sample list `[1, -1]`. -/
theorem c5_pcm_decode_roundtrip_witness :
    decodePipeline (String.mk (b64Encode (pcmSerialize [(1 : Int), -1])))
      = some { numberOfChannels := 1, sampleRate := 24000,
               channelData := [(1 : Int), -1].map fun n : Int => (n : ℚ) / 32768 } :=
  c5_pcm_decode_roundtrip.1 [1, -1] (by decide) (by decide)

/-! ## Claim C2: fence stripping before parsing -/

theorem dropWhile_head_not : ∀ (l : List Char) (c : Char),
    (l.dropWhile isJsonWs).head? = some c → isJsonWs c = false := by
  intro l
  induction l with
  | nil => intro c hc; simp [List.dropWhile] at hc
  | cons a as ih =>
    intro c hc
    rcases hb : isJsonWs a with - | -
    · rw [List.dropWhile_cons, hb] at hc
      simp only [Bool.false_eq_true, if_false, List.head?_cons, Option.some.injEq] at hc
      rw [← hc]
      exact hb
    · rw [List.dropWhile_cons, hb] at hc
      simp only [if_true] at hc
      exact ih c hc

theorem dropWhile_eq_self_of_head (l : List Char)
    (h : ∀ c, l.head? = some c → isJsonWs c = false) :
    l.dropWhile isJsonWs = l := by
  cases l with
  | nil => rfl
  | cons a as =>
    rw [List.dropWhile_cons, h a rfl]
    simp

theorem dropWhile_getLast? : ∀ (l : List Char),
    l.dropWhile isJsonWs ≠ [] →
    (l.dropWhile isJsonWs).getLast? = l.getLast? := by
  intro l
  induction l with
  | nil => intro h; exact absurd rfl h
  | cons a as ih =>
    intro h
    rcases hb : isJsonWs a with - | -
    · rw [List.dropWhile_cons, hb]
      simp
    · rw [List.dropWhile_cons, hb] at h ⊢
      simp only [if_true] at h ⊢
      have has : as ≠ [] := by
        intro he
        rw [he] at h
        exact h rfl
      rw [ih h]
      exact (List.getLast?_append_of_ne_nil [a] has).symm

theorem dropWhile_exists_pre (l : List Char) :
    ∃ pre, l = pre ++ l.dropWhile isJsonWs := by
  induction l with
  | nil => exact ⟨[], rfl⟩
  | cons a as ih =>
    rcases hb : isJsonWs a with - | -
    · refine ⟨[], ?_⟩
      rw [List.dropWhile_cons, hb]
      simp
    · obtain ⟨pre, hp⟩ := ih
      refine ⟨a :: pre, ?_⟩
      rw [List.dropWhile_cons, hb]
      simp only [if_true, List.cons_append]
      rw [← hp]

theorem trimWs_cons_ws (c : Char) (l : List Char) (hc : isJsonWs c = true) :
    trimWs (c :: l) = trimWs l := by
  unfold trimWs
  rw [List.dropWhile_cons, hc]
  simp

theorem dropWhile_append_ws (l : List Char) (c : Char) (hc : isJsonWs c = true) :
    (l ++ [c]).dropWhile isJsonWs
      = if (l.dropWhile isJsonWs).isEmpty then [] else l.dropWhile isJsonWs ++ [c] := by
  induction l with
  | nil => simp [List.dropWhile, hc]
  | cons a as ih =>
    rcases hb : isJsonWs a with - | -
    · rw [List.cons_append, List.dropWhile_cons, List.dropWhile_cons, hb]
      simp
    · rw [List.cons_append, List.dropWhile_cons, List.dropWhile_cons, hb]
      simp only [if_true]
      exact ih

theorem trimWs_append_ws (l : List Char) (c : Char) (hc : isJsonWs c = true) :
    trimWs (l ++ [c]) = trimWs l := by
  unfold trimWs
  rw [dropWhile_append_ws l c hc]
  rcases hD : (l.dropWhile isJsonWs).isEmpty with - | -
  · rw [if_neg Bool.false_ne_true]
    have hrev : (l.dropWhile isJsonWs ++ [c]).reverse
        = c :: (l.dropWhile isJsonWs).reverse := by
      simp
    rw [hrev, List.dropWhile_cons, hc]
    simp
  · rw [if_pos rfl, List.isEmpty_iff.mp hD]

theorem trimWs_eq_self (l : List Char)
    (hh : ∀ c, l.head? = some c → isJsonWs c = false)
    (hl : ∀ c, l.getLast? = some c → isJsonWs c = false) :
    trimWs l = l := by
  unfold trimWs
  rw [dropWhile_eq_self_of_head l hh]
  rw [dropWhile_eq_self_of_head l.reverse
    (fun c hc => hl c (by rwa [List.head?_reverse] at hc))]
  exact List.reverse_reverse l

theorem trimWs_idem (l : List Char) : trimWs (trimWs l) = trimWs l := by
  apply trimWs_eq_self
  · intro c hc
    show isJsonWs c = false
    rw [show trimWs l
        = ((l.dropWhile isJsonWs).reverse.dropWhile isJsonWs).reverse from rfl] at hc
    rw [List.head?_reverse] at hc
    by_cases hBe : (l.dropWhile isJsonWs).reverse.dropWhile isJsonWs = []
    · rw [hBe] at hc
      simp at hc
    · rw [dropWhile_getLast? (l.dropWhile isJsonWs).reverse hBe,
        List.getLast?_reverse] at hc
      exact dropWhile_head_not l c hc
  · intro c hc
    rw [show trimWs l
        = ((l.dropWhile isJsonWs).reverse.dropWhile isJsonWs).reverse from rfl] at hc
    rw [List.getLast?_reverse] at hc
    exact dropWhile_head_not (l.dropWhile isJsonWs).reverse c hc

theorem listStartsWith_eq (p l : List Char) :
    listStartsWith p l = true ↔ l.take p.length = p := by
  unfold listStartsWith
  exact beq_iff_eq

theorem listStartsWith_fence3_of_fenceJson {l : List Char}
    (h : listStartsWith fenceJson l = true) : listStartsWith fence3 l = true := by
  rw [listStartsWith_eq] at h ⊢
  have h3 := congrArg (List.take 3) h
  rw [List.take_take] at h3
  exact h3

theorem containsFence_of_startsWith {l : List Char}
    (h : listStartsWith fence3 l = true) : containsFence l = true := by
  cases l with
  | nil =>
    rw [listStartsWith_eq] at h
    simp at h
    exact absurd h (by decide)
  | cons c cs => simp [containsFence, h]

theorem listStartsWith_of_take {p l : List Char} {k : Nat}
    (h : listStartsWith p (l.take k) = true) : listStartsWith p l = true := by
  rw [listStartsWith_eq] at h ⊢
  rw [List.take_take] at h
  have hlen := congrArg List.length h
  rw [List.length_take] at hlen
  have hmin : min p.length k = p.length := by omega
  rw [hmin] at h
  exact h

theorem containsFence_false_parts {c : Char} {cs : List Char}
    (h : containsFence (c :: cs) = false) :
    listStartsWith fence3 (c :: cs) = false ∧ containsFence cs = false := by
  have h' := h
  rw [containsFence] at h'
  exact Bool.or_eq_false_iff.mp h'

theorem containsFence_take : ∀ (l : List Char) (n : Nat),
    containsFence l = false → containsFence (l.take n) = false := by
  intro l
  induction l with
  | nil =>
    intro n h
    rw [List.take_nil]
    exact h
  | cons c cs ih =>
    intro n h
    obtain ⟨h1, h2⟩ := containsFence_false_parts h
    rcases n with - | m
    · rfl
    · rw [List.take_succ_cons, containsFence]
      rw [ih m h2]
      have hsw : listStartsWith fence3 (c :: cs.take m) = false := by
        rcases hb : listStartsWith fence3 (c :: cs.take m) with - | -
        · rfl
        · rw [show (c :: cs.take m) = (c :: cs).take (m + 1) from rfl] at hb
          rw [listStartsWith_of_take hb] at h1
          exact absurd h1 (by simp)
      rw [hsw]
      rfl

theorem containsFence_append_left : ∀ (pre l : List Char),
    containsFence (pre ++ l) = false → containsFence l = false := by
  intro pre
  induction pre with
  | nil => exact fun l h => h
  | cons c cs ih =>
    intro l h
    rw [List.cons_append] at h
    exact ih l (containsFence_false_parts h).2

theorem containsFence_trimWs {l : List Char} (h : containsFence l = false) :
    containsFence (trimWs l) = false := by
  obtain ⟨pre, hpre⟩ := dropWhile_exists_pre l
  have hA : containsFence (l.dropWhile isJsonWs) = false :=
    containsFence_append_left pre _ (by rw [← hpre]; exact h)
  obtain ⟨pre2, hpre2⟩ := dropWhile_exists_pre (l.dropWhile isJsonWs).reverse
  have hArev : l.dropWhile isJsonWs
      = ((l.dropWhile isJsonWs).reverse.dropWhile isJsonWs).reverse ++ pre2.reverse := by
    have := congrArg List.reverse hpre2
    rw [List.reverse_reverse, List.reverse_append] at this
    exact this
  set T := ((l.dropWhile isJsonWs).reverse.dropWhile isJsonWs).reverse with hT
  have htake : T = (l.dropWhile isJsonWs).take T.length := by
    conv_rhs => rw [hArev]
    rw [List.take_left]
  show containsFence T = false
  rw [htake]
  exact containsFence_take _ _ hA

theorem not_startsWith_fenceJson_of_noFence {l : List Char}
    (h : containsFence l = false) : listStartsWith fenceJson l = false := by
  rcases hb : listStartsWith fenceJson l with - | -
  · rfl
  · have h3 := listStartsWith_fence3_of_fenceJson hb
    rw [containsFence_of_startsWith h3] at h
    exact absurd h (by simp)

theorem replaceFencesAux_nil (fuel : Nat) : replaceFencesAux fuel [] = [] := by
  cases fuel <;> rfl

theorem startsWith_fence3_cons_iff {c : Char} {cs : List Char} :
    listStartsWith fence3 (c :: cs) = true ↔
      c = '\x60' ∧ cs.take 2 = ['\x60', '\x60'] := by
  rw [listStartsWith_eq]
  rw [show (c :: cs).take fence3.length = c :: cs.take 2 from rfl,
      show fence3 = ['\x60', '\x60', '\x60'] from rfl]
  simp

theorem not_fence3_junction {c : Char} {cs : List Char}
    (h : listStartsWith fence3 (c :: cs) = false) :
    listStartsWith fence3 (c :: (cs ++ '\n' :: fence3)) = false := by
  rcases hb : listStartsWith fence3 (c :: (cs ++ '\n' :: fence3)) with - | -
  · rfl
  · exfalso
    obtain ⟨hc, htake⟩ := startsWith_fence3_cons_iff.mp hb
    have hne : ¬(listStartsWith fence3 (c :: cs) = true) := by
      rw [h]
      exact Bool.false_ne_true
    rcases cs with - | ⟨d, - | ⟨e, rest⟩⟩
    · rw [show (([] : List Char) ++ '\n' :: fence3).take 2 = ['\n', '\x60'] from rfl] at htake
      exact absurd htake (by decide)
    · rw [show ([d] ++ '\n' :: fence3).take 2 = [d, '\n'] from rfl] at htake
      simp at htake
    · rw [show ((d :: e :: rest) ++ '\n' :: fence3).take 2 = [d, e] from rfl] at htake
      apply hne
      apply startsWith_fence3_cons_iff.mpr
      exact ⟨hc, by rw [show (d :: e :: rest).take 2 = [d, e] from rfl]; exact htake⟩

theorem replaceFencesAux_cons_no_fence (fuel : Nat) (c : Char) (cs : List Char)
    (h3 : listStartsWith fence3 (c :: cs) = false) :
    replaceFencesAux (fuel + 1) (c :: cs) = c :: replaceFencesAux fuel cs := by
  have hJ : listStartsWith fenceJson (c :: cs) = false := by
    rcases hb : listStartsWith fenceJson (c :: cs) with - | -
    · rfl
    · rw [listStartsWith_fence3_of_fenceJson hb] at h3
      exact absurd h3 (by simp)
  simp only [replaceFencesAux, hJ, h3, Bool.false_eq_true, if_false]

theorem rf_tail : ∀ (t : List Char) (fuel : Nat),
    containsFence t = false → t.length + 4 ≤ fuel →
    replaceFencesAux fuel (t ++ '\n' :: fence3) = t ++ ['\n'] := by
  intro t
  induction t with
  | nil =>
    intro fuel _ hfuel
    obtain ⟨f, rfl⟩ : ∃ f, fuel = f + 2 := ⟨fuel - 2, by omega⟩
    rw [List.nil_append]
    calc replaceFencesAux (f + 2) ('\n' :: fence3)
        = '\n' :: replaceFencesAux (f + 1) fence3 := rfl
      _ = '\n' :: replaceFencesAux f [] := rfl
      _ = ['\n'] := by rw [replaceFencesAux_nil]
  | cons c cs ih =>
    intro fuel hnf hfuel
    obtain ⟨f, rfl⟩ : ∃ f, fuel = f + 1 := ⟨fuel - 1, by omega⟩
    obtain ⟨h1, h2⟩ := containsFence_false_parts hnf
    rw [List.cons_append]
    rw [replaceFencesAux_cons_no_fence f c _ (not_fence3_junction h1)]
    rw [ih f h2 (by simp only [List.length_cons] at hfuel; omega)]
    rw [List.cons_append]

/-- C2 counterexample: for the payload text `{"word":"a```b"}` (a valid
WordDefinition-shaped JSON text containing a fence marker inside a string
value), parsing the fence-wrapped payload differs from parsing the bare
payload: the global replacement also deletes the fence marker inside the
string, yielding the word "ab" instead of "a```b". -/
theorem c2_counterexample :
    parseLookupResponse (fenceWrap "\x7b\"word\":\"a```b\"\x7d")
      ≠ parseLookupResponse "\x7b\"word\":\"a```b\"\x7d" := by
  intro h
  have hcong := congrArg wordFieldStr h
  rw [show wordFieldStr (parseLookupResponse (fenceWrap "\x7b\"word\":\"a```b\"\x7d"))
        = some "ab" from rfl,
      show wordFieldStr (parseLookupResponse "\x7b\"word\":\"a```b\"\x7d")
        = some "a```b" from rfl] at hcong
  exact absurd (Option.some.inj hcong) (by decide)

/-- C2 (amended): for every payload text `t` containing no occurrence of
the fence marker ```` ``` ````, the lookup client's parse step applied to
`t` wrapped in a markdown code fence with language tag yields the same
result as parsing `t` without the fence.  (The code performs a global
replacement of all fence markers, so a payload containing ```` ``` ````
inside a JSON string is altered by stripping; the restriction to
fence-free payloads is what the global replacement forces.) -/
theorem c2_fence_strip (t : String) (hnf : containsFence t.toList = false) :
    parseLookupResponse (fenceWrap t) = parseLookupResponse t := by
  have hW : (fenceWrap t).toList
      = fenceJson ++ '\n' :: (t.toList ++ '\n' :: fence3) := by
    simp [fenceWrap, fenceJson, fence3]
  have htrim1 : trimWs (fenceJson ++ '\n' :: (t.toList ++ '\n' :: fence3))
      = fenceJson ++ '\n' :: (t.toList ++ '\n' :: fence3) := by
    apply trimWs_eq_self
    · intro c hc
      rw [show (fenceJson ++ '\n' :: (t.toList ++ '\n' :: fence3)).head?
          = some '\x60' from rfl] at hc
      rw [← Option.some.inj hc]
      decide
    · intro c hc
      have hshape : fenceJson ++ '\n' :: (t.toList ++ '\n' :: fence3)
          = (fenceJson ++ '\n' :: (t.toList ++ ['\n', '\x60', '\x60'])) ++ ['\x60'] := by
        simp [fence3]
      rw [hshape, List.getLast?_concat] at hc
      rw [← Option.some.inj hc]
      decide
  have hsw : listStartsWith fenceJson
      (fenceJson ++ '\n' :: (t.toList ++ '\n' :: fence3)) = true := rfl
  have hrf : replaceFences (fenceJson ++ '\n' :: (t.toList ++ '\n' :: fence3))
      = '\n' :: (t.toList ++ ['\n']) := by
    unfold replaceFences
    calc replaceFencesAux
          (fenceJson ++ '\n' :: (t.toList ++ '\n' :: fence3)).length
          (fenceJson ++ '\n' :: (t.toList ++ '\n' :: fence3))
        = '\n' :: replaceFencesAux ((t.toList ++ '\n' :: fence3).length + 6)
            (t.toList ++ '\n' :: fence3) := rfl
      _ = '\n' :: (t.toList ++ ['\n']) := by
          rw [rf_tail t.toList _ hnf
            (by simp only [List.length_append, List.length_cons]; omega)]
  have hnf2 : containsFence (trimWs t.toList) = false := containsFence_trimWs hnf
  have hsw2 : listStartsWith fenceJson (trimWs t.toList) = false :=
    not_startsWith_fenceJson_of_noFence hnf2
  have hjp : jsonParse ('\n' :: (t.toList ++ ['\n'])) = jsonParse (trimWs t.toList) := by
    unfold jsonParse
    rw [trimWs_cons_ws '\n' _ (by decide), trimWs_append_ws _ '\n' (by decide),
      trimWs_idem]
  simp only [parseLookupResponse, hW, htrim1, hsw, hrf, hsw2, if_true,
    Bool.false_eq_true, if_false]
  rw [hjp]

/-- Witness for C2's amended theorem at a concrete fence-free payload. -/
theorem c2_fence_strip_witness :
    parseLookupResponse (fenceWrap "\x7b\"word\":\"run\"\x7d")
      = parseLookupResponse "\x7b\"word\":\"run\"\x7d" :=
  c2_fence_strip "\x7b\"word\":\"run\"\x7d" (by decide)

end LinguistPro

